import Mathlib

/-!
# LRU cache (`main.go`): a shallow embedding

The Go program keeps a `map[string]*Node[T]` next to a doubly linked list of
heap-allocated nodes.  Pointers are modelled as addresses into an explicit
heap: `Option Nat` where the source compares against `nil`, `Nat` where the
pointer is known to refer to a node.  A nil dereference (a Go panic) is the
result `none` of the operation that performs it.

`CurrentSize` and `Size` are Go `int`s; they are modelled by `Int`.  No
operation below moves the counter by more than one per call, so wrap-around
at `2^63` plays no part in any statement of this file.
-/

namespace LRU

/-- Go `type Node[T any] struct`.  `Next` and `Previous` are `*Node[T]`. -/
structure Node (T : Type) where
  CacheKey : String
  Data : T
  Next : Option Nat
  Previous : Option Nat

/-- Go `type LinkedList[T any] struct`. -/
structure LinkedList where
  Head : Option Nat
  Tail : Option Nat

/-- Go `type LRUCache[T any] struct`, together with the part of the Go heap
that holds `Node` objects: `heap` gives the content of every address and
`nextAddr` is the address the next `&Node[T]` literal will receive.  The `Cache`
map is an association list read by its first match; its values are the
addresses of nodes (the program never stores `nil` in the map, and
`LinkedList` itself is always allocated by `NewLRUCache`). -/
structure LRUCache (T : Type) where
  heap : Nat → Node T
  nextAddr : Nat
  Cache : List (String × Nat)
  LinkedList : LinkedList
  CurrentSize : Int
  Size : Int

/-! ## The Go map -/

/-- Go `m[key]` in its two-result form: `some a` when the key is present. -/
def mapGet (m : List (String × Nat)) (key : String) : Option Nat :=
  match m with
  | [] => none
  | (k, a) :: rest => if k = key then some a else mapGet rest key

/-- Go `delete(m, key)`. -/
def mapDelete (m : List (String × Nat)) (key : String) : List (String × Nat) :=
  m.filter (fun p => decide (p.1 ≠ key))

/-- Go `m[key] = a`. -/
def mapSet (m : List (String × Nat)) (key : String) (a : Nat) : List (String × Nat) :=
  (key, a) :: mapDelete m key

/-- Keys of the map, each once. -/
def mapKeys (m : List (String × Nat)) : List String :=
  (m.map Prod.fst).dedup

/-! ## Heap writes -/

/-- Go `n.Next = p` for the node at address `a`. -/
def setNext {T : Type} (h : Nat → Node T) (a : Nat) (p : Option Nat) : Nat → Node T :=
  fun b => if b = a then { h a with Next := p } else h b

/-- Go `n.Previous = p` for the node at address `a`. -/
def setPrevious {T : Type} (h : Nat → Node T) (a : Nat) (p : Option Nat) : Nat → Node T :=
  fun b => if b = a then { h a with Previous := p } else h b

/-- Go `n.Data = v` for the node at address `a`. -/
def setData {T : Type} (h : Nat → Node T) (a : Nat) (v : T) : Nat → Node T :=
  fun b => if b = a then { h a with Data := v } else h b

/-- Go `&Node[T]` literal: the heap after storing `n` at address `a`. -/
def alloc {T : Type} (h : Nat → Node T) (a : Nat) (n : Node T) : Nat → Node T :=
  fun b => if b = a then n else h b

/-! ## The operations of `main.go` -/

/-- Go `NewLRUCache[T](size)`.  The content of unallocated addresses is
immaterial; it is filled with an empty node. -/
def NewLRUCache {T : Type} [Inhabited T] (size : Int) : LRUCache T :=
  { heap := fun _ => { CacheKey := "", Data := default, Next := none, Previous := none }
    nextAddr := 0
    Cache := []
    LinkedList := { Head := none, Tail := none }
    Size := size
    CurrentSize := 0 }

/-- Go `(c *LRUCache[T]) moveValueToHead(value)`, statement by statement. -/
def moveValueToHead {T : Type} (c : LRUCache T) (value : Nat) : LRUCache T :=
  let prevNode := (c.heap value).Previous
  let nextNode := (c.heap value).Next
  let needsNewTail : Bool := decide (some value = c.LinkedList.Tail)
  -- if needsNewTail { c.LinkedList.Tail = value.Previous }
  let tail1 := if needsNewTail then (c.heap value).Previous else c.LinkedList.Tail
  -- if nextNode != nil { nextNode.Previous = prevNode }
  let h1 := match nextNode with
    | some n => setPrevious c.heap n prevNode
    | none => c.heap
  -- if prevNode != nil { prevNode.Next = nextNode }
  let h2 := match prevNode with
    | some p => setNext h1 p nextNode
    | none => h1
  -- value.Previous = nil
  let h3 := setPrevious h2 value none
  -- oldHead := c.LinkedList.Head; if oldHead != nil { oldHead.Previous = value }
  let oldHead := c.LinkedList.Head
  let h4 := match oldHead with
    | some o => setPrevious h3 o (some value)
    | none => h3
  -- value.Next = oldHead; c.LinkedList.Head = value
  let h5 := setNext h4 value oldHead
  { c with heap := h5, LinkedList := { Head := some value, Tail := tail1 } }

/-- Go `(c *LRUCache[T]) trimFromCurrentTail()`.  `tail.Previous` dereferences
`c.LinkedList.Tail`, so a nil tail is a panic (`none`).  The result is the
address of the returned node and the new state. -/
def trimFromCurrentTail {T : Type} (c : LRUCache T) : Option (Nat × LRUCache T) :=
  match c.LinkedList.Tail with
  | none => none
  | some tail =>
    let newTail := (c.heap tail).Previous
    -- if newTail != nil { newTail.Next = nil; c.CurrentSize-- }
    let c1 : LRUCache T := match newTail with
      | some nt => { c with heap := setNext c.heap nt none, CurrentSize := c.CurrentSize - 1 }
      | none => c
    -- if c.CurrentSize == 0 { c.LinkedList.Head = nil }
    let c2 : LRUCache T :=
      if c1.CurrentSize = 0 then
        { c1 with LinkedList := { Head := none, Tail := c1.LinkedList.Tail } }
      else c1
    some (tail, c2)

/-- Go `(c *LRUCache[T]) Lookup(key)`: the pair `(value, found)` and the new
state.  No statement of `Lookup` can dereference nil. -/
def Lookup {T : Type} [Inhabited T] (c : LRUCache T) (key : String) : (T × Bool) × LRUCache T :=
  match mapGet c.Cache key with
  | none => ((default, false), c)
  | some value =>
    let c1 :=
      if c.LinkedList.Head ≠ some value ∧ c.CurrentSize > 1 then moveValueToHead c value
      else c
    (((c1.heap value).Data, true), c1)

/-- The part of Go `Add` after the eviction block. -/
def addAfterEvict {T : Type} (c : LRUCache T) (key : String) (value : T) : LRUCache T :=
  match mapGet c.Cache key with
  | some val =>
    -- c.Cache[key].Data = value; c.moveValueToHead(val); return
    moveValueToHead { c with heap := setData c.heap val value } val
  | none =>
    -- node := &Node[T]{...}
    let node := c.nextAddr
    let c1 : LRUCache T :=
      { c with
        heap := alloc c.heap node
          { CacheKey := key, Data := value, Next := none, Previous := none }
        nextAddr := c.nextAddr + 1 }
    -- c.moveValueToHead(node); c.Cache[key] = node; c.CurrentSize++
    let c2 := moveValueToHead c1 node
    let c3 : LRUCache T :=
      { c2 with Cache := mapSet c2.Cache key node, CurrentSize := c2.CurrentSize + 1 }
    -- if c.LinkedList.Tail == nil { c.LinkedList.Tail = node }
    match c3.LinkedList.Tail with
    | none => { c3 with LinkedList := { Head := c3.LinkedList.Head, Tail := some node } }
    | some _ => c3

/-- Go `(c *LRUCache[T]) Add(key, value)`; `none` when the eviction block
panics on a nil tail. -/
def Add {T : Type} (c : LRUCache T) (key : String) (value : T) : Option (LRUCache T) :=
  if c.CurrentSize ≥ c.Size then
    -- oldTail := c.trimFromCurrentTail(); delete(c.Cache, oldTail.CacheKey)
    match trimFromCurrentTail c with
    | none => none
    | some (oldTail, c1) =>
      some (addAfterEvict
        { c1 with Cache := mapDelete c1.Cache (c1.heap oldTail).CacheKey } key value)
  else
    some (addAfterEvict c key value)

/-! ## Observations and call sequences -/

/-- Addresses met by following `Next` from `p` until nil, at most `fuel`
nodes; `none` when the walk has not reached nil within `fuel` nodes. -/
def walk {T : Type} (h : Nat → Node T) : Nat → Option Nat → Option (List Nat)
  | _, none => some []
  | 0, some _ => none
  | fuel + 1, some a => (walk h fuel (h a).Next).map (fun l => a :: l)

/-- The nodes reached from `LinkedList.Head` via `Next`.  A list without a
cycle over allocated nodes has at most `nextAddr` nodes, so `none` means the
walk never reaches nil. -/
def nodesFromHead {T : Type} (c : LRUCache T) : Option (List Nat) :=
  walk c.heap c.nextAddr c.LinkedList.Head

/-- The key/value pairs walked from `LinkedList.Head` via `Next`. -/
def order {T : Type} (c : LRUCache T) : Option (List (String × T)) :=
  (nodesFromHead c).map (fun l => l.map (fun a => ((c.heap a).CacheKey, (c.heap a).Data)))

/-- A call of the public interface. -/
inductive Op (T : Type) where
  | add (key : String) (value : T)
  | lookup (key : String)

/-- One call applied to a state; `none` when the call panics. -/
def step {T : Type} [Inhabited T] (c : LRUCache T) : Op T → Option (LRUCache T)
  | Op.add k v => Add c k v
  | Op.lookup k => some (Lookup c k).2

/-- A sequence of calls applied in order. -/
def run {T : Type} [Inhabited T] (c : LRUCache T) : List (Op T) → Option (LRUCache T)
  | [] => some c
  | op :: rest => (step c op).bind (fun c1 => run c1 rest)

/-- States produced from `NewLRUCache(capacity)`, `capacity ≥ 1`, by calls of
`Add` and `Lookup`. -/
def Reachable {T : Type} [Inhabited T] (c : LRUCache T) : Prop :=
  ∃ (capacity : Int) (ops : List (Op T)), 1 ≤ capacity ∧ run (NewLRUCache capacity) ops = some c

/-- The pointer `p` is nil or the address of a node allocated before `n`. -/
def PtrOk (n : Nat) (p : Option Nat) : Prop :=
  ∀ a ∈ p, a < n

/-- Both links of every node allocated before `n` satisfy `PtrOk n`. -/
def HeapOk {T : Type} (n : Nat) (h : Nat → Node T) : Prop :=
  ∀ a < n, PtrOk n (h a).Next ∧ PtrOk n (h a).Previous

/-- Every address stored in the `Cache` map, in `Head` or `Tail`, or in a link
of an allocated node is the address of an allocated node.  Every state of the
Go program has this property: a pointer is nil or refers to an object that
exists, and a `&Node[T]` literal returns an address distinct from all of them. -/
def HeapClosed {T : Type} (c : LRUCache T) : Prop :=
  (∀ p ∈ c.Cache, p.2 < c.nextAddr) ∧
  PtrOk c.nextAddr c.LinkedList.Head ∧
  PtrOk c.nextAddr c.LinkedList.Tail ∧
  HeapOk c.nextAddr c.heap

instance (n : Nat) (p : Option Nat) : Decidable (PtrOk n p) := by
  unfold PtrOk; infer_instance

instance {T : Type} (n : Nat) (h : Nat → Node T) : Decidable (HeapOk n h) := by
  unfold HeapOk; infer_instance

instance {T : Type} (c : LRUCache T) : Decidable (HeapClosed c) := by
  unfold HeapClosed; infer_instance

/-! ## The reference model of the specification -/

/-- Reference `put`, after the specification's words: a list of key/value
pairs, most recent first; a present key is overwritten and moved to the
front; an absent key at full capacity drops the last pair and is then
inserted at the front. -/
def modelAdd {T : Type} (capacity : Nat) (m : List (String × T)) (key : String) (value : T) :
    List (String × T) :=
  if (m.map Prod.fst).contains key then
    (key, value) :: m.filter (fun p => decide (p.1 ≠ key))
  else if capacity ≤ m.length then (key, value) :: m.dropLast
  else (key, value) :: m

/-- Reference `get`, after the specification's words: an absent key gives the
zero value and `false`; a present key gives its value and moves its pair to
the front. -/
def modelLookup {T : Type} [Inhabited T] (m : List (String × T)) (key : String) :
    (T × Bool) × List (String × T) :=
  match m.find? (fun p => decide (p.1 = key)) with
  | none => ((default, false), m)
  | some p => ((p.2, true), p :: m.filter (fun q => decide (q.1 ≠ key)))

/-- The reference model after a sequence of calls. -/
def modelRun {T : Type} [Inhabited T] (capacity : Nat) (m : List (String × T)) :
    List (Op T) → List (String × T)
  | [] => m
  | Op.add k v :: rest => modelRun capacity (modelAdd capacity m k v) rest
  | Op.lookup k :: rest => modelRun capacity (modelLookup m k).2 rest

/-! ## Call sequences used below -/

/-- The calls of `TestScenario6_ComplexSequence`. -/
def scenario6 : List (Op Nat) :=
  [Op.add "A" 1, Op.add "B" 2, Op.add "C" 3, Op.lookup "A", Op.add "D" 4, Op.add "B" 20]

/-- The calls of `TestScenario3_EvictionWhenFull`, with integer values. -/
def scenario3 : List (Op Nat) :=
  [Op.add "A" 1, Op.add "B" 2, Op.add "C" 3]

/-- The first two calls of `TestScenario4_UpdateExistingKey`, with integer values. -/
def addAB : List (Op Nat) :=
  [Op.add "A" 1, Op.add "B" 2]

/-- The state `NewLRUCache[int](2)`. -/
def cacheEmpty : LRUCache Nat :=
  NewLRUCache 2

/-- The state of a capacity-2 cache after `Add("A", 1)`. -/
def cacheA : LRUCache Nat :=
  addAfterEvict cacheEmpty "A" 1

/-- The state of a capacity-2 cache after `Add("A", 1)` and `Add("B", 2)`. -/
def cacheAB : LRUCache Nat :=
  addAfterEvict cacheA "B" 2

/-- The calls after which `Add("A", 0)` finds a full capacity-3 cache with a nil tail. -/
def nilTailCalls : List (Op Nat) :=
  [Op.add "A" 0, Op.add "B" 0, Op.add "B" 0, Op.add "C" 0, Op.lookup "A"]

/-! ## The stub `remove` -/

/-- Go `(c *LRUCache[T]) remove(key)`.  The body of the Go function is empty and
it has no result, so the state after the call is the state before it. -/
def remove {T : Type} (c : LRUCache T) (_key : String) : LRUCache T :=
  c

/-! ## Well-formed lists -/

/-- First address of `l`, or `d` when `l` is empty. -/
def headOr (l : List Nat) (d : Option Nat) : Option Nat :=
  match l with
  | [] => d
  | a :: _ => some a

/-- Last address of `l`, or `d` when `l` is empty. -/
def lastOr (l : List Nat) (d : Option Nat) : Option Nat :=
  match l with
  | [] => d
  | a :: rest => lastOr rest (some a)

/-- The nodes `l` are linked in this order: the first node has `Previous = prev`,
the last has `Next = next`, and between neighbours `Next` and `Previous` are
inverse to each other. -/
def Seg {T : Type} (h : Nat → Node T) (prev : Option Nat) (l : List Nat) (next : Option Nat) :
    Prop :=
  match l with
  | [] => True
  | a :: rest =>
    (h a).Previous = prev ∧ (h a).Next = headOr rest next ∧ Seg h (some a) rest next

/-- The list of `c` is well formed with node sequence `l`: no node occurs twice
(the walk from `Head` via `Next` has no cycle), `Head` is the first node and
its `Previous` is nil, `Tail` is the last node and its `Next` is nil, and
`Next` and `Previous` are inverse along `l`. -/
def WellFormed {T : Type} (c : LRUCache T) (l : List Nat) : Prop :=
  l.Nodup ∧ c.LinkedList.Head = headOr l none ∧ c.LinkedList.Tail = lastOr l none ∧
    Seg c.heap none l none

instance {T : Type} (h : Nat → Node T) (l : List Nat) :
    ∀ (prev next : Option Nat), Decidable (Seg h prev l next) := by
  induction l with
  | nil => intro _ _; unfold Seg; infer_instance
  | cons a rest ih => intro prev next; unfold Seg; have := ih (some a) next; infer_instance

instance {T : Type} (c : LRUCache T) (l : List Nat) : Decidable (WellFormed c l) := by
  unfold WellFormed; infer_instance

end LRU

/-!
# Token bucket (`rate-limiter.go`)

`Tokens`, `Capacity` and `RefillRate` are Go `float64`s and `Allow` reads the
clock.  Here token counts are exact rationals and the time elapsed since
`LastRefillTime` is an argument of `Allow`.  The mutex held for the whole of
`Allow` makes calls sequential; it has no other effect and is left out.
-/

namespace TokenBucket

/-- Go `type RateLimiter struct`, without the mutex.  `LastRefillTime` is a
clock reading in seconds. -/
structure RateLimiter where
  Capacity : ℚ
  Tokens : ℚ
  RefillRate : ℚ
  LastRefillTime : ℚ

/-- Go `NewRateLimiter(rate, burst)`; `now` is the value of `time.Now()`. -/
def NewRateLimiter (rate burst now : ℚ) : RateLimiter :=
  { Capacity := burst
    Tokens := burst
    RefillRate := rate
    LastRefillTime := now }

/-- Go `(l *RateLimiter) Allow()`, where `elapsed` is the value in seconds of
`time.Since(l.LastRefillTime)`. -/
def Allow (l : RateLimiter) (elapsed : ℚ) : Bool × RateLimiter :=
  let tokensToAdd := elapsed * l.RefillRate
  let totalTokens := min (tokensToAdd + l.Tokens) l.Capacity
  -- l.Tokens = totalTokens; l.LastRefillTime = time.Now()
  let l1 : RateLimiter :=
    { l with Tokens := totalTokens, LastRefillTime := l.LastRefillTime + elapsed }
  -- if l.Tokens < 1 { return false }; l.Tokens--; return true
  if l1.Tokens < 1 then (false, l1)
  else (true, { l1 with Tokens := l1.Tokens - 1 })

/-- Successive calls of `Allow`, the `i`-th after `es[i]` seconds: the results
in order and the final state. -/
def allowSeq (l : RateLimiter) : List ℚ → List Bool × RateLimiter
  | [] => ([], l)
  | e :: es => ((Allow l e).1 :: (allowSeq (Allow l e).2 es).1, (allowSeq (Allow l e).2 es).2)

end TokenBucket

namespace LRU

variable {T : Type}

/-! ## Lemmas on the map -/

theorem mapGet_mem {m : List (String × Nat)} {k : String} {a : Nat}
    (h : mapGet m k = some a) : (k, a) ∈ m := by
  induction m with
  | nil => simp [mapGet] at h
  | cons p rest ih =>
    obtain ⟨k0, a0⟩ := p
    unfold mapGet at h
    by_cases hk : k0 = k
    · simp [hk] at h
      simp [hk, h]
    · simp [hk] at h
      exact List.mem_cons_of_mem _ (ih h)

theorem mapGet_mapDelete (m : List (String × Nat)) (k k' : String) :
    mapGet (mapDelete m k) k' = if k' = k then none else mapGet m k' := by
  induction m with
  | nil => simp [mapDelete, mapGet]
  | cons p rest ih =>
    obtain ⟨k0, a0⟩ := p
    unfold mapDelete at ih ⊢
    by_cases hk : k0 = k <;> by_cases hk' : k' = k
    · simp [List.filter_cons, hk, hk'] at ih ⊢
      exact ih
    · have hne : ¬ k = k' := fun h => hk' h.symm
      simp [List.filter_cons, hk, hk', mapGet, hne] at ih ⊢
      exact ih
    · have hne : ¬ k0 = k' := fun h => hk (h.trans hk')
      simp [List.filter_cons, hk, hk', mapGet, hne] at ih ⊢
      simpa [hk'] using ih
    · simp [List.filter_cons, hk, hk', mapGet] at ih ⊢
      rw [ih]

theorem mapGet_mapSet (m : List (String × Nat)) (k k' : String) (a : Nat) :
    mapGet (mapSet m k a) k' = if k' = k then some a else mapGet m k' := by
  unfold mapSet
  by_cases hk' : k' = k
  · simp [mapGet, hk']
  · have hne : ¬ k = k' := fun h => hk' h.symm
    simp [mapGet, hk', hne, mapGet_mapDelete]

/-! ## Lemmas on heap writes -/

@[simp] theorem setNext_Data (h : Nat → Node T) (a b : Nat) (p : Option Nat) :
    (setNext h a p b).Data = (h b).Data := by
  unfold setNext; split <;> simp_all

@[simp] theorem setPrevious_Data (h : Nat → Node T) (a b : Nat) (p : Option Nat) :
    (setPrevious h a p b).Data = (h b).Data := by
  unfold setPrevious; split <;> simp_all

@[simp] theorem setNext_Next_self (h : Nat → Node T) (a : Nat) (p : Option Nat) :
    (setNext h a p a).Next = p := by
  simp [setNext]

@[simp] theorem setData_Data_self (h : Nat → Node T) (a : Nat) (v : T) :
    (setData h a v a).Data = v := by
  simp [setData]

/-! ## Lemmas on `moveValueToHead` -/

theorem moveValueToHead_Data (c : LRUCache T) (a b : Nat) :
    ((moveValueToHead c a).heap b).Data = (c.heap b).Data := by
  unfold moveValueToHead
  cases (c.heap a).Next <;> cases (c.heap a).Previous <;> cases c.LinkedList.Head <;> simp

theorem moveValueToHead_Next_self (c : LRUCache T) (a : Nat) :
    ((moveValueToHead c a).heap a).Next = c.LinkedList.Head := by
  simp [moveValueToHead]

theorem moveValueToHead_Head (c : LRUCache T) (a : Nat) :
    (moveValueToHead c a).LinkedList.Head = some a := rfl

theorem moveValueToHead_Cache (c : LRUCache T) (a : Nat) :
    (moveValueToHead c a).Cache = c.Cache := rfl

theorem moveValueToHead_CurrentSize (c : LRUCache T) (a : Nat) :
    (moveValueToHead c a).CurrentSize = c.CurrentSize := rfl

/-! ## Lemmas on `Add` -/

/-- What `addAfterEvict` establishes on each of its two paths. -/
theorem addAfterEvict_spec (c : LRUCache T) (k : String) (v : T) :
    ∃ a, mapGet (addAfterEvict c k v).Cache k = some a ∧
      (addAfterEvict c k v).LinkedList.Head = some a ∧
      ((addAfterEvict c k v).heap a).Data = v := by
  unfold addAfterEvict
  cases hg : mapGet c.Cache k with
  | some val =>
    refine ⟨val, ?_, rfl, ?_⟩
    · simpa [moveValueToHead_Cache] using hg
    · simp [moveValueToHead_Data]
  | none =>
    refine ⟨c.nextAddr, ?_, ?_, ?_⟩
    · simp only []
      split <;> simp [mapGet_mapSet]
    · simp only []
      split <;> rfl
    · simp only []
      split <;> simp [moveValueToHead_Data, alloc]

/-- `Add` completes when the tail is non-nil whenever the eviction block runs. -/
theorem Add_completes (c : LRUCache T) (k : String) (v : T)
    (h : c.CurrentSize ≥ c.Size → c.LinkedList.Tail ≠ none) :
    ∃ c0, Add c k v = some (addAfterEvict c0 k v) := by
  unfold Add
  by_cases hfull : c.CurrentSize ≥ c.Size
  · rw [if_pos hfull]
    have ht := h hfull
    cases htl : c.LinkedList.Tail with
    | none => exact absurd htl ht
    | some tail =>
      simp only [trimFromCurrentTail, htl]
      exact ⟨_, rfl⟩
  · rw [if_neg hfull]
    exact ⟨c, rfl⟩

/-! ## `HeapClosed` holds in every reachable state -/

theorem PtrOk_none (n : Nat) : PtrOk n none := by
  intro a ha; cases ha

theorem PtrOk_some {n a : Nat} (h : a < n) : PtrOk n (some a) := by
  intro b hb
  cases hb
  exact h

theorem PtrOk_mono {n m : Nat} {p : Option Nat} (hnm : n ≤ m) (h : PtrOk n p) : PtrOk m p :=
  fun a ha => Nat.lt_of_lt_of_le (h a ha) hnm

theorem HeapOk_setNext {n : Nat} {h : Nat → Node T} (hh : HeapOk n h) (a : Nat)
    {p : Option Nat} (hp : PtrOk n p) : HeapOk n (setNext h a p) := by
  intro b hb
  unfold setNext
  by_cases hba : b = a
  · subst hba
    simp only [if_true]
    exact ⟨hp, (hh b hb).2⟩
  · simp only [if_neg hba]
    exact hh b hb

theorem HeapOk_setPrevious {n : Nat} {h : Nat → Node T} (hh : HeapOk n h) (a : Nat)
    {p : Option Nat} (hp : PtrOk n p) : HeapOk n (setPrevious h a p) := by
  intro b hb
  unfold setPrevious
  by_cases hba : b = a
  · subst hba
    simp only [if_true]
    exact ⟨(hh b hb).1, hp⟩
  · simp only [if_neg hba]
    exact hh b hb

theorem HeapOk_setData {n : Nat} {h : Nat → Node T} (hh : HeapOk n h) (a : Nat) (v : T) :
    HeapOk n (setData h a v) := by
  intro b hb
  unfold setData
  by_cases hba : b = a
  · subst hba
    simp only [if_true]
    exact hh b hb
  · simp only [if_neg hba]
    exact hh b hb

theorem HeapClosed_moveValueToHead {c : LRUCache T} (hc : HeapClosed c) {a : Nat}
    (ha : a < c.nextAddr) : HeapClosed (moveValueToHead c a) := by
  obtain ⟨hcache, hhead, htail, hheap⟩ := hc
  have hnext : PtrOk c.nextAddr (c.heap a).Next := (hheap a ha).1
  have hprev : PtrOk c.nextAddr (c.heap a).Previous := (hheap a ha).2
  refine ⟨hcache, PtrOk_some ha, ?_, ?_⟩
  · show PtrOk c.nextAddr
      (if (decide (some a = c.LinkedList.Tail)) = true then (c.heap a).Previous
        else c.LinkedList.Tail)
    split
    · exact hprev
    · exact htail
  · have h1 : HeapOk c.nextAddr (match (c.heap a).Next with
        | some n => setPrevious c.heap n (c.heap a).Previous
        | none => c.heap) := by
      split
      · exact HeapOk_setPrevious hheap _ hprev
      · exact hheap
    have h2 : HeapOk c.nextAddr (match (c.heap a).Previous with
        | some p => setNext (match (c.heap a).Next with
            | some n => setPrevious c.heap n (c.heap a).Previous
            | none => c.heap) p (c.heap a).Next
        | none => (match (c.heap a).Next with
            | some n => setPrevious c.heap n (c.heap a).Previous
            | none => c.heap)) := by
      split
      · exact HeapOk_setNext h1 _ hnext
      · exact h1
    have h3 := HeapOk_setPrevious h2 a (PtrOk_none c.nextAddr)
    unfold moveValueToHead
    simp only []
    apply HeapOk_setNext _ _ hhead
    split
    · exact HeapOk_setPrevious h3 _ (PtrOk_some ha)
    · exact h3

theorem mem_mapDelete {m : List (String × Nat)} {k : String} {p : String × Nat}
    (h : p ∈ mapDelete m k) : p ∈ m :=
  (List.mem_filter.mp h).1

theorem HeapOk_alloc {n : Nat} {h : Nat → Node T} (hh : HeapOk n h) (k : String) (v : T) :
    HeapOk (n + 1)
      (alloc h n { CacheKey := k, Data := v, Next := none, Previous := none }) := by
  intro b hb
  unfold alloc
  by_cases hbn : b = n
  · simp only [if_pos hbn]
    exact ⟨PtrOk_none _, PtrOk_none _⟩
  · simp only [if_neg hbn]
    have hlt : b < n := by omega
    exact ⟨PtrOk_mono (Nat.le_succ n) (hh b hlt).1, PtrOk_mono (Nat.le_succ n) (hh b hlt).2⟩

theorem trimFromCurrentTail_closed {c c' : LRUCache T} {t : Nat} (hc : HeapClosed c)
    (h : trimFromCurrentTail c = some (t, c')) :
    HeapClosed c' ∧ c'.nextAddr = c.nextAddr ∧ c'.Cache = c.Cache := by
  obtain ⟨hcache, hhead, htail, hheap⟩ := hc
  unfold trimFromCurrentTail at h
  cases htl : c.LinkedList.Tail with
  | none => simp [htl] at h
  | some tail =>
    simp only [htl, Option.some.injEq, Prod.mk.injEq] at h
    obtain ⟨-, rfl⟩ := h
    have hc1 : HeapClosed (match (c.heap tail).Previous with
        | some nt =>
          ({ c with heap := setNext c.heap nt none, CurrentSize := c.CurrentSize - 1 } :
            LRUCache T)
        | none => c) ∧
        (match (c.heap tail).Previous with
        | some nt =>
          ({ c with heap := setNext c.heap nt none, CurrentSize := c.CurrentSize - 1 } :
            LRUCache T)
        | none => c).nextAddr = c.nextAddr ∧
        (match (c.heap tail).Previous with
        | some nt =>
          ({ c with heap := setNext c.heap nt none, CurrentSize := c.CurrentSize - 1 } :
            LRUCache T)
        | none => c).Cache = c.Cache := by
      split
      · exact ⟨⟨hcache, hhead, htail, HeapOk_setNext hheap _ (PtrOk_none _)⟩, rfl, rfl⟩
      · exact ⟨⟨hcache, hhead, htail, hheap⟩, rfl, rfl⟩
    obtain ⟨⟨h1, h2, h3, h4⟩, hn, hm⟩ := hc1
    split
    · exact ⟨⟨h1, PtrOk_none _, h3, h4⟩, hn, hm⟩
    · exact ⟨⟨h1, h2, h3, h4⟩, hn, hm⟩

theorem addAfterEvict_closed {c : LRUCache T} (hc : HeapClosed c) (k : String) (v : T) :
    HeapClosed (addAfterEvict c k v) := by
  unfold addAfterEvict
  cases hg : mapGet c.Cache k with
  | some val =>
    have hval : val < c.nextAddr := hc.1 (k, val) (mapGet_mem hg)
    exact HeapClosed_moveValueToHead
      (c := { c with heap := setData c.heap val v })
      ⟨hc.1, hc.2.1, hc.2.2.1, HeapOk_setData hc.2.2.2 val v⟩ hval
  | none =>
    have hle : c.nextAddr ≤ c.nextAddr + 1 := Nat.le_succ _
    have hc1 : HeapClosed ({ c with
        heap := alloc c.heap c.nextAddr
          { CacheKey := k, Data := v, Next := none, Previous := none }
        nextAddr := c.nextAddr + 1 } : LRUCache T) :=
      ⟨fun p hp => Nat.lt_succ_of_lt (hc.1 p hp), PtrOk_mono hle hc.2.1,
        PtrOk_mono hle hc.2.2.1, HeapOk_alloc hc.2.2.2 k v⟩
    have hc2 := HeapClosed_moveValueToHead hc1 (a := c.nextAddr) (Nat.lt_succ_self _)
    obtain ⟨m1, m2, m3, m4⟩ := hc2
    have hcache : ∀ p ∈ mapSet c.Cache k c.nextAddr, p.2 < c.nextAddr + 1 := by
      intro p hp
      unfold mapSet at hp
      rcases List.mem_cons.mp hp with rfl | hp
      · exact Nat.lt_succ_self _
      · exact Nat.lt_succ_of_lt (hc.1 p (mem_mapDelete hp))
    simp only []
    split
    · exact ⟨hcache, m2, PtrOk_some (Nat.lt_succ_self _), m4⟩
    · exact ⟨hcache, m2, m3, m4⟩

theorem Add_closed {c c' : LRUCache T} (hc : HeapClosed c) {k : String} {v : T}
    (h : Add c k v = some c') : HeapClosed c' := by
  unfold Add at h
  split at h
  · cases ht : trimFromCurrentTail c with
    | none => simp [ht] at h
    | some r =>
      obtain ⟨t, c1⟩ := r
      simp only [ht, Option.some.injEq] at h
      subst h
      obtain ⟨⟨h1, h2, h3, h4⟩, -, -⟩ := trimFromCurrentTail_closed hc ht
      exact addAfterEvict_closed
        (c := { c1 with Cache := mapDelete c1.Cache (c1.heap t).CacheKey })
        ⟨fun p hp => h1 p (mem_mapDelete hp), h2, h3, h4⟩ k v
  · simp only [Option.some.injEq] at h
    subst h
    exact addAfterEvict_closed hc k v

theorem Lookup_closed [Inhabited T] {c : LRUCache T} (hc : HeapClosed c) (k : String) :
    HeapClosed (Lookup c k).2 := by
  unfold Lookup
  cases hg : mapGet c.Cache k with
  | none => exact hc
  | some val =>
    simp only []
    split
    · exact HeapClosed_moveValueToHead hc (hc.1 (k, val) (mapGet_mem hg))
    · exact hc

theorem run_closed [Inhabited T] (ops : List (Op T)) :
    ∀ {c c' : LRUCache T}, HeapClosed c → run c ops = some c' → HeapClosed c' := by
  induction ops with
  | nil =>
    intro c c' hc h
    simp only [run, Option.some.injEq] at h
    subst h
    exact hc
  | cons op rest ih =>
    intro c c' hc h
    unfold run at h
    cases hs : step c op with
    | none => simp [hs] at h
    | some c1 =>
      simp only [hs, Option.some_bind] at h
      refine ih ?_ h
      cases op with
      | add k v => exact Add_closed hc hs
      | lookup k =>
        simp only [step, Option.some.injEq] at hs
        subst hs
        exact Lookup_closed hc k

/-- Every state reachable from `NewLRUCache` by `Add` and `Lookup` is heap-closed. -/
theorem Reachable_closed [Inhabited T] {c : LRUCache T} (h : Reachable c) : HeapClosed c := by
  obtain ⟨capacity, ops, -, hrun⟩ := h
  refine run_closed ops ?_ hrun
  refine ⟨?_, PtrOk_none _, PtrOk_none _, ?_⟩
  · intro p hp
    cases hp
  · intro a ha
    exact absurd ha (Nat.not_lt_zero a)

/-! ## The claims -/

/-- C1: on the calls of `TestScenario6_ComplexSequence` at capacity 3 the cache and the
reference model part ways: the list walked from `Head` is `[B, D, A, C]` where the model
has `[B, D, A]`, and `Lookup("C")` still finds `C` where the model does not. -/
theorem scenario6_departs_from_model :
    (run (NewLRUCache 3) scenario6).bind order
        = some [("B", 20), ("D", 4), ("A", 1), ("C", 3)] ∧
      modelRun 3 [] scenario6 = [("B", 20), ("D", 4), ("A", 1)] ∧
      (run (NewLRUCache 3) scenario6).map (fun c => (Lookup c "C").1) = some (3, true) ∧
      (modelLookup (modelRun 3 [] scenario6) "C").1 = (0, false) := by
  decide

/-- C2: at capacity 2 after `Add` of `A`, `B`, `C` the cache is full (`CurrentSize = Size`)
with keys `C` and `B`, and `D` is absent; `Add("D", 4)` then removes no key at all. -/
theorem add_absent_when_full_removes_no_key :
    (run (NewLRUCache 2) scenario3).map
        (fun c => (c.CurrentSize, c.Size, mapKeys c.Cache, mapGet c.Cache "D"))
        = some (2, 2, ["C", "B"], none) ∧
      ((run (NewLRUCache 2) scenario3).bind (fun c => Add c "D" 4)).map
        (fun c => mapKeys c.Cache) = some ["D", "C", "B"] := by
  decide

/-- C3: at capacity 1, `Add("A", 1)` followed by `Add("B", 2)` leaves `CurrentSize = 2`,
above `Size = 1`. -/
theorem capacity_one_CurrentSize_exceeds_Size :
    (run (NewLRUCache 1) addAB).map
        (fun c => (c.CurrentSize, c.Size, decide (c.CurrentSize ≤ c.Size)))
        = some (2, 1, false) := by
  decide

/-- C4: at capacity 2 after `Add` of `A`, `B`, `C`, `D` the counter `CurrentSize` is 2
while the `Cache` map has 3 keys and the walk from `Head` meets 3 nodes. -/
theorem CurrentSize_differs_from_key_and_node_count :
    ((run (NewLRUCache 2) scenario3).bind (fun c => Add c "D" 4)).map
        (fun c => (c.CurrentSize, (mapKeys c.Cache).length, (nodesFromHead c).map List.length))
        = some (2, 3, some 3) := by
  decide

/-- C5: at capacity 2 after `Add` of `A` and `B`, the key `B` is present and
`CurrentSize = 2`; `Add("B", 3)` then leaves `CurrentSize = 1` and only the key `B`.
`Add("A", 3)` instead leaves `CurrentSize = 2` and both keys, yet `A` has been evicted and
inserted again: its node is the new node 2, not node 0. -/
theorem add_present_key_when_full_evicts :
    (run (NewLRUCache 2) addAB).map
        (fun c => (c.CurrentSize, mapKeys c.Cache, mapGet c.Cache "B"))
        = some (2, ["B", "A"], some 1) ∧
      ((run (NewLRUCache 2) addAB).bind (fun c => Add c "B" 3)).map
        (fun c => (c.CurrentSize, mapKeys c.Cache)) = some (1, ["B"]) ∧
      ((run (NewLRUCache 2) addAB).bind (fun c => Add c "A" 3)).map
        (fun c => (c.CurrentSize, mapKeys c.Cache, mapGet c.Cache "A")) =
        some (2, ["A", "B"], some 2) := by
  decide

/-- C6: put-then-get round trip.  In every state whose tail is non-nil whenever
`CurrentSize >= Size`, `Add(k, v)` completes and the `Lookup(k)` that follows returns
`(v, true)`. -/
theorem Add_then_Lookup_returns_value [Inhabited T] (c : LRUCache T) (k : String) (v : T)
    (h : c.CurrentSize ≥ c.Size → c.LinkedList.Tail ≠ none) :
    ∃ c', Add c k v = some c' ∧ (Lookup c' k).1 = (v, true) := by
  obtain ⟨c0, hc0⟩ := Add_completes c k v h
  refine ⟨_, hc0, ?_⟩
  obtain ⟨a, hget, -, hdata⟩ := addAfterEvict_spec c0 k v
  unfold Lookup
  rw [hget]
  simp only []
  split
  · rw [moveValueToHead_Data, hdata]
  · rw [hdata]

/-- C6 at a full cache: the capacity-2 cache holding `A` and `B` has a non-nil tail, and
`Add("A", 3)` followed by `Lookup("A")` returns `(3, true)`. -/
theorem Add_then_Lookup_witness :
    (cacheAB.CurrentSize ≥ cacheAB.Size → cacheAB.LinkedList.Tail ≠ none) ∧
      ∃ c', Add cacheAB "A" 3 = some c' ∧ (Lookup c' "A").1 = (3, true) :=
  ⟨by decide, Add_then_Lookup_returns_value cacheAB "A" 3 (by decide)⟩

/-- C7: `Lookup` of a key that is not in `Cache` returns the zero value and `false`, and
the state it leaves is the state it was given: map, `Head`, `Tail`, every node,
`CurrentSize` and `Size`. -/
theorem Lookup_absent_returns_zero_and_keeps_state [Inhabited T] (c : LRUCache T)
    (k : String) (h : mapGet c.Cache k = none) :
    Lookup c k = ((default, false), c) := by
  unfold Lookup
  rw [h]

/-- C7 at the capacity-2 cache holding `A` and `B`: `Lookup("C")` returns `(0, false)` and
the same state. -/
theorem Lookup_absent_witness :
    mapGet cacheAB.Cache "C" = none ∧ Lookup cacheAB "C" = ((0, false), cacheAB) :=
  ⟨by decide, Lookup_absent_returns_zero_and_keeps_state cacheAB "C" (by decide)⟩

/-- C8: at capacity 2 after `Add` of `A`, `B`, `C` and `Add("B", 4)`, the key `C` is
present at node 2 and `CurrentSize = 1`; `Lookup("C")` returns `(3, true)` and leaves
`Head` at node 1, the node of `B`, where promoting without the guard makes node 2 the
head.  On the calls of `TestScenario5_LookupMovesToHead` the order does become `[A, B]`. -/
theorem lookup_guard_blocks_promotion :
    ((run (NewLRUCache 2) scenario3).bind (fun c => Add c "B" 4)).map
        (fun c => (mapGet c.Cache "C", c.CurrentSize, (Lookup c "C").1))
        = some (some 2, 1, (3, true)) ∧
      ((run (NewLRUCache 2) scenario3).bind (fun c => Add c "B" 4)).map
        (fun c => ((Lookup c "C").2.LinkedList.Head, order (Lookup c "C").2))
        = some (some 1, some [("B", 4), ("C", 3)]) ∧
      ((run (NewLRUCache 2) scenario3).bind (fun c => Add c "B" 4)).map
        (fun c => (moveValueToHead c 2).LinkedList.Head) = some (some 2) ∧
      (run (NewLRUCache 2) addAB).map (fun c => order (Lookup c "A").2)
        = some (some [("A", 1), ("B", 2)]) := by
  decide

/-- C9: in every state whose tail is non-nil whenever `CurrentSize >= Size`, `Add(k, v)`
completes and the node stored in `Cache` under `k` is then `LinkedList.Head`; the update,
plain-insert and evict-then-insert paths all end this way. -/
theorem Add_makes_key_Head (c : LRUCache T) (k : String) (v : T)
    (h : c.CurrentSize ≥ c.Size → c.LinkedList.Tail ≠ none) :
    ∃ c' a, Add c k v = some c' ∧ mapGet c'.Cache k = some a ∧
      c'.LinkedList.Head = some a := by
  obtain ⟨c0, hc0⟩ := Add_completes c k v h
  obtain ⟨a, hget, hhead, -⟩ := addAfterEvict_spec c0 k v
  exact ⟨_, a, hc0, hget, hhead⟩

/-- C9 on the evict-then-insert path: in the full capacity-2 cache holding `A` and `B`,
`Add("C", 3)` completes and the node of `C` is `Head`. -/
theorem Add_makes_key_Head_witness :
    (cacheAB.CurrentSize ≥ cacheAB.Size → cacheAB.LinkedList.Tail ≠ none) ∧
      ∃ c' a, Add cacheAB "C" 3 = some c' ∧ mapGet c'.Cache "C" = some a ∧
        c'.LinkedList.Head = some a :=
  ⟨by decide, Add_makes_key_Head cacheAB "C" 3 (by decide)⟩

/-- C10: in every state with `CurrentSize < Size`, `Add(k, v)` of a key absent from
`Cache` completes and evicts nothing: every key present before is still mapped to its
node and that node's `Data` is unchanged, `k` is mapped to the new node whose `Data` is
`v`, `CurrentSize` has grown by one, the new node is `Head` and its `Next` is the former
`Head`, and when `Head` and `Tail` were both nil the new node is also `Tail`. -/
theorem Add_absent_below_capacity_pushes_front (c : LRUCache T) (k : String) (v : T)
    (hc : HeapClosed c) (hlt : c.CurrentSize < c.Size) (habs : mapGet c.Cache k = none) :
    ∃ c', Add c k v = some c' ∧
      (∀ k' a, mapGet c.Cache k' = some a →
        mapGet c'.Cache k' = some a ∧ (c'.heap a).Data = (c.heap a).Data) ∧
      mapGet c'.Cache k = some c.nextAddr ∧
      (c'.heap c.nextAddr).Data = v ∧
      c'.CurrentSize = c.CurrentSize + 1 ∧
      c'.LinkedList.Head = some c.nextAddr ∧
      (c'.heap c.nextAddr).Next = c.LinkedList.Head ∧
      (c.LinkedList.Head = none → c.LinkedList.Tail = none →
        c'.LinkedList.Tail = some c.nextAddr) := by
  have hnf : ¬ c.CurrentSize ≥ c.Size := by omega
  refine ⟨addAfterEvict c k v, ?_, ?_⟩
  · unfold Add
    rw [if_neg hnf]
  unfold addAfterEvict
  rw [habs]
  simp only []
  refine ⟨?_, ?_, ?_, ?_, ?_, ?_, ?_⟩
  · intro k' a hk'
    have hne : k' ≠ k := by
      intro he
      rw [he, habs] at hk'
      cases hk'
    have hlt' : a < c.nextAddr := hc.1 (k', a) (mapGet_mem hk')
    have hna : a ≠ c.nextAddr := Nat.ne_of_lt hlt'
    split <;> simp [mapGet_mapSet, hne, moveValueToHead_Cache, hk', moveValueToHead_Data, alloc, hna]
  · split <;> simp [mapGet_mapSet]
  · split <;> simp [moveValueToHead_Data, alloc]
  · split <;> simp [moveValueToHead_CurrentSize]
  · split <;> rfl
  · split <;> simp [moveValueToHead_Next_self]
  · intro _ ht
    split
    · rfl
    · rename_i a hsome
      simp [moveValueToHead, ht] at hsome

/-- C10 at the two steps of `TestScenario1_FirstAddition` and
`TestScenario2_SecondAddition`: `Add("A", 1)` on the empty capacity-2 cache, where the new
node also becomes `Tail`, and `Add("B", 2)` on the result. -/
theorem Add_absent_below_capacity_witness :
    ((HeapClosed cacheEmpty ∧ cacheEmpty.CurrentSize < cacheEmpty.Size ∧
        mapGet cacheEmpty.Cache "A" = none) ∧
      ∃ c', Add cacheEmpty "A" 1 = some c' ∧
        (∀ k' a, mapGet cacheEmpty.Cache k' = some a →
          mapGet c'.Cache k' = some a ∧ (c'.heap a).Data = (cacheEmpty.heap a).Data) ∧
        mapGet c'.Cache "A" = some cacheEmpty.nextAddr ∧
        (c'.heap cacheEmpty.nextAddr).Data = 1 ∧
        c'.CurrentSize = cacheEmpty.CurrentSize + 1 ∧
        c'.LinkedList.Head = some cacheEmpty.nextAddr ∧
        (c'.heap cacheEmpty.nextAddr).Next = cacheEmpty.LinkedList.Head ∧
        (cacheEmpty.LinkedList.Head = none → cacheEmpty.LinkedList.Tail = none →
          c'.LinkedList.Tail = some cacheEmpty.nextAddr)) ∧
    ((HeapClosed cacheA ∧ cacheA.CurrentSize < cacheA.Size ∧ mapGet cacheA.Cache "B" = none) ∧
      ∃ c', Add cacheA "B" 2 = some c' ∧
        (∀ k' a, mapGet cacheA.Cache k' = some a →
          mapGet c'.Cache k' = some a ∧ (c'.heap a).Data = (cacheA.heap a).Data) ∧
        mapGet c'.Cache "B" = some cacheA.nextAddr ∧
        (c'.heap cacheA.nextAddr).Data = 2 ∧
        c'.CurrentSize = cacheA.CurrentSize + 1 ∧
        c'.LinkedList.Head = some cacheA.nextAddr ∧
        (c'.heap cacheA.nextAddr).Next = cacheA.LinkedList.Head ∧
        (cacheA.LinkedList.Head = none → cacheA.LinkedList.Tail = none →
          c'.LinkedList.Tail = some cacheA.nextAddr)) :=
  ⟨⟨⟨by decide, by decide, by decide⟩,
      Add_absent_below_capacity_pushes_front cacheEmpty "A" 1
        (by decide) (by decide) (by decide)⟩,
    ⟨⟨by decide, by decide, by decide⟩,
      Add_absent_below_capacity_pushes_front cacheA "B" 2 (by decide)
        (by decide) (by decide)⟩⟩

/-! ## Lemmas on well-formed lists -/

@[simp] theorem setNext_Previous (h : Nat → Node T) (a b : Nat) (p : Option Nat) :
    (setNext h a p b).Previous = (h b).Previous := by
  unfold setNext; split <;> simp_all

@[simp] theorem setPrevious_Next (h : Nat → Node T) (a b : Nat) (p : Option Nat) :
    (setPrevious h a p b).Next = (h b).Next := by
  unfold setPrevious; split <;> simp_all

theorem setNext_Next (h : Nat → Node T) (a b : Nat) (p : Option Nat) :
    (setNext h a p b).Next = if b = a then p else (h b).Next := by
  unfold setNext; split <;> simp_all

theorem setPrevious_Previous (h : Nat → Node T) (a b : Nat) (p : Option Nat) :
    (setPrevious h a p b).Previous = if b = a then p else (h b).Previous := by
  unfold setPrevious; split <;> simp_all

/-- The `Next` link of every node after `moveValueToHead`. -/
theorem moveValueToHead_Next (c : LRUCache T) (n b : Nat) :
    ((moveValueToHead c n).heap b).Next =
      if b = n then c.LinkedList.Head
      else if (c.heap n).Previous = some b then (c.heap n).Next
      else (c.heap b).Next := by
  unfold moveValueToHead
  simp only [setNext_Next]
  by_cases hb : b = n
  · simp [hb]
  · simp only [if_neg hb]
    cases hp : (c.heap n).Previous <;> cases hx : (c.heap n).Next <;>
      cases hh : c.LinkedList.Head <;> simp [setNext_Next, eq_comm]

/-- The `Previous` link of every node after `moveValueToHead`. -/
theorem moveValueToHead_Previous (c : LRUCache T) (n b : Nat) :
    ((moveValueToHead c n).heap b).Previous =
      if c.LinkedList.Head = some b then some n
      else if b = n then none
      else if (c.heap n).Next = some b then (c.heap n).Previous
      else (c.heap b).Previous := by
  unfold moveValueToHead
  simp only [setNext_Previous]
  cases hp : (c.heap n).Previous <;> cases hx : (c.heap n).Next <;>
    cases hh : c.LinkedList.Head <;> simp [setPrevious_Previous, eq_comm]

theorem lastOr_append (l1 l2 : List Nat) (d : Option Nat) :
    lastOr (l1 ++ l2) d = lastOr l2 (lastOr l1 d) := by
  induction l1 generalizing d with
  | nil => rfl
  | cons a r ih =>
    show lastOr (r ++ l2) (some a) = lastOr l2 (lastOr r (some a))
    exact ih (some a)

theorem headOr_append (l1 l2 : List Nat) (d : Option Nat) :
    headOr (l1 ++ l2) d = headOr l1 (headOr l2 d) := by
  cases l1 <;> rfl

theorem lastOr_mem : ∀ (l : List Nat) (d : Option Nat) (a : Nat), a ∈ l →
    ∃ b ∈ l, lastOr l d = some b := by
  intro l
  induction l with
  | nil => intro d a ha; cases ha
  | cons x r ih =>
    intro d a _
    cases r with
    | nil => exact ⟨x, List.mem_cons_self _ _, rfl⟩
    | cons y r2 =>
      obtain ⟨b, hb, hl⟩ := ih (some x) y (List.mem_cons_self _ _)
      exact ⟨b, List.mem_cons_of_mem _ hb, hl⟩

theorem Seg_append {h : Nat → Node T} (l1 l2 : List Nat) (prev next : Option Nat) :
    Seg h prev (l1 ++ l2) next ↔
      Seg h prev l1 (headOr l2 next) ∧ Seg h (lastOr l1 prev) l2 next := by
  induction l1 generalizing prev with
  | nil => simp [Seg, lastOr]
  | cons a r ih =>
    show ((h a).Previous = prev ∧ (h a).Next = headOr (r ++ l2) next ∧
        Seg h (some a) (r ++ l2) next) ↔
      ((h a).Previous = prev ∧ (h a).Next = headOr r (headOr l2 next) ∧
        Seg h (some a) r (headOr l2 next)) ∧ Seg h (lastOr r (some a)) l2 next
    rw [ih, headOr_append]
    tauto

/-- The first node of a segment has the segment's `prev` as `Previous`. -/
theorem Seg_head_Previous {h : Nat → Node T} {l : List Nat} {prev next : Option Nat} {a : Nat}
    (hs : Seg h prev l next) (ha : headOr l none = some a) : (h a).Previous = prev := by
  cases l with
  | nil => cases ha
  | cons x r =>
    simp only [headOr, Option.some.injEq] at ha
    subst ha
    exact hs.1

/-- Rewriting the two ends of a segment: when `h'` differs from `h` on the nodes of `l`
only in the `Previous` of the first node and the `Next` of the last, `l` is a segment
of `h'` between the new ends. -/
theorem Seg_update {h h' : Nat → Node T} :
    ∀ (l : List Nat) (prev prev' next next' : Option Nat), l.Nodup → Seg h prev l next →
      (∀ a ∈ l, (h' a).Previous = if headOr l none = some a then prev' else (h a).Previous) →
      (∀ a ∈ l, (h' a).Next = if lastOr l none = some a then next' else (h a).Next) →
      Seg h' prev' l next' := by
  intro l
  induction l with
  | nil => intro _ _ _ _ _ _ _ _; trivial
  | cons a rest ih =>
    intro prev prev' next next' hnd hs hP hN
    obtain ⟨-, hnext, hrest⟩ := hs
    have hnotin : a ∉ rest := (List.nodup_cons.mp hnd).1
    have hndr : rest.Nodup := (List.nodup_cons.mp hnd).2
    refine ⟨?_, ?_, ?_⟩
    · have := hP a (List.mem_cons_self _ _)
      simpa [headOr] using this
    · have hNa := hN a (List.mem_cons_self _ _)
      cases rest with
      | nil => simpa [lastOr, headOr] using hNa
      | cons b r =>
        obtain ⟨z, hz, hl⟩ := lastOr_mem (b :: r) (some a) b (List.mem_cons_self _ _)
        have hza : z ≠ a := fun e => hnotin (e ▸ hz)
        have hl2 : lastOr (a :: b :: r) none = some z := hl
        rw [hl2, if_neg (by simpa using hza)] at hNa
        rw [hNa, hnext]
        rfl
    · refine ih (some a) (some a) next next' hndr hrest ?_ ?_
      · intro x hx
        have hxa : x ≠ a := fun e => hnotin (e ▸ hx)
        have hPx := hP x (List.mem_cons_of_mem _ hx)
        have hne : ¬ headOr (a :: rest) none = some x := by
          simp only [headOr, Option.some.injEq]
          exact fun e => hxa e.symm
        rw [if_neg hne] at hPx
        rw [hPx]
        by_cases hh : headOr rest none = some x
        · rw [if_pos hh]
          exact Seg_head_Previous hrest hh
        · rw [if_neg hh]
      · intro x hx
        have hNx := hN x (List.mem_cons_of_mem _ hx)
        have hl : lastOr (a :: rest) none = lastOr rest none := by
          cases rest with
          | nil => cases hx
          | cons b r => rfl
        rw [hl] at hNx
        exact hNx

/-- The last node of a segment has the segment's `next` as `Next`. -/
theorem Seg_last_Next {h : Nat → Node T} :
    ∀ (l : List Nat) (prev next : Option Nat) (a : Nat), Seg h prev l next →
      lastOr l none = some a → (h a).Next = next := by
  intro l
  induction l with
  | nil => intro _ _ _ _ ha; cases ha
  | cons x r ih =>
    intro prev next a hs ha
    cases r with
    | nil =>
      simp only [lastOr, Option.some.injEq] at ha
      subst ha
      exact hs.2.1
    | cons y r2 => exact ih (some x) next a hs.2.2 ha

/-- The walk along `Next` over a segment that ends in nil yields the segment. -/
theorem Seg_walk {h : Nat → Node T} :
    ∀ (l : List Nat) (prev : Option Nat), Seg h prev l none →
      walk h l.length (headOr l none) = some l := by
  intro l
  induction l with
  | nil => intro _ _; rfl
  | cons a r ih =>
    intro prev hs
    show (walk h r.length (h a).Next).map (fun l => a :: l) = some (a :: r)
    rw [hs.2.1, ih (some a) hs.2.2]
    rfl

/-- A well-formed list is what the walk from `Head` via `Next` yields. -/
theorem WellFormed_walk {c : LRUCache T} {l : List Nat} (hwf : WellFormed c l) :
    walk c.heap l.length c.LinkedList.Head = some l := by
  obtain ⟨-, hH, -, hS⟩ := hwf
  rw [hH]
  exact Seg_walk l none hS

/-- What `moveValueToHead` does to a well-formed list when the node is not the head. -/
theorem moveValueToHead_WellFormed {c : LRUCache T} {l : List Nat} {n : Nat}
    (hwf : WellFormed c l) (hn : n ∈ l) (hhead : c.LinkedList.Head ≠ some n) :
    WellFormed (moveValueToHead c n) (n :: l.erase n) := by
  obtain ⟨hnd, hH, hT, hS⟩ := hwf
  obtain ⟨pre, post, rfl⟩ := List.append_of_mem hn
  have hnd' : (n :: (pre ++ post)).Nodup := List.nodup_middle.mp hnd
  have hnpp : n ∉ pre ++ post := (List.nodup_cons.mp hnd').1
  have hnpre : n ∉ pre := fun h => hnpp (List.mem_append_left _ h)
  have hnpost : n ∉ post := fun h => hnpp (List.mem_append_right _ h)
  have hndpp : (pre ++ post).Nodup := (List.nodup_cons.mp hnd').2
  have hndpre : pre.Nodup := (List.nodup_append.mp hndpp).1
  have hndpost : post.Nodup := (List.nodup_append.mp hndpp).2.1
  have hdisj : ∀ a, a ∈ pre → a ∉ post := fun a ha hb =>
    (List.nodup_append.mp hndpp).2.2 ha hb
  have herase : (pre ++ n :: post).erase n = pre ++ post := by
    rw [List.erase_append_right _ hnpre, List.erase_cons_head]
  rw [herase]
  -- the node is not the head, so something precedes it
  cases pre with
  | nil => exact absurd hH hhead
  | cons h0 pre' =>
    have hH0 : c.LinkedList.Head = some h0 := hH
    have hn0 : h0 ≠ n := fun e => hnpre (e ▸ List.mem_cons_self _ _)
    obtain ⟨hSpre, hSn⟩ := (Seg_append (h0 :: pre') (n :: post) none none).mp hS
    obtain ⟨hnPrev, hnNext, hSpost⟩ := hSn
    obtain ⟨p, hp, hlast⟩ := lastOr_mem (h0 :: pre') none h0 (List.mem_cons_self _ _)
    have hlast' : ∀ d, lastOr (h0 :: pre') d = some p := fun d => hlast
    rw [hlast] at hnPrev
    have hpn : p ≠ n := fun e => hnpre (e ▸ hp)
    have hnotpost : ∀ a, a ∈ h0 :: pre' → ¬ headOr post none = some a := by
      intro a ha he
      cases post with
      | nil => cases he
      | cons y r =>
        simp only [headOr, Option.some.injEq] at he
        exact hdisj a ha (he ▸ List.mem_cons_self _ _)
    refine ⟨hnd', rfl, ?_, ?_, ?_, ?_⟩
    · -- Tail
      show (if (decide (some n = c.LinkedList.Tail)) = true then (c.heap n).Previous
          else c.LinkedList.Tail) = lastOr (n :: (h0 :: pre' ++ post)) none
      have hl : lastOr (n :: (h0 :: pre' ++ post)) none = lastOr post (some p) := by
        show lastOr (h0 :: pre' ++ post) (some n) = lastOr post (some p)
        rw [lastOr_append, hlast' (some n)]
      have hT' : c.LinkedList.Tail = lastOr post (some n) := by
        rw [hT, lastOr_append]
        rfl
      rw [hl, hT', hnPrev]
      cases post with
      | nil => simp [lastOr]
      | cons y r =>
        obtain ⟨z, hz, hzl⟩ := lastOr_mem (y :: r) (some n) y (List.mem_cons_self _ _)
        have hzn : z ≠ n := fun e => hnpost (e ▸ hz)
        have hzl2 : lastOr (y :: r) (some p) = some z := hzl
        rw [hzl, hzl2]
        have : ¬ (some n = some z) := by
          simp only [Option.some.injEq]
          exact fun e => hzn e.symm
        simp [this]
    · -- Previous of the new head
      rw [moveValueToHead_Previous, hH0]
      simp [hn0]
    · -- Next of the new head
      rw [moveValueToHead_Next, if_pos rfl, hH0]
      rfl
    · -- the rest of the list
      refine (Seg_append (h0 :: pre') post (some n) none).mpr ⟨?_, ?_⟩
      · refine Seg_update (h0 :: pre') none (some n) (some n) (headOr post none) hndpre hSpre ?_ ?_
        · intro a ha
          have han : a ≠ n := fun e => hnpre (e ▸ ha)
          rw [moveValueToHead_Previous, hH0, hnNext, if_neg han, if_neg (hnotpost a ha)]
          rfl
        · intro a ha
          have han : a ≠ n := fun e => hnpre (e ▸ ha)
          rw [moveValueToHead_Next, if_neg han, hnPrev, hlast, hnNext]
      · rw [hlast' (some n)]
        refine Seg_update post (some n) (some p) none none hndpost hSpost ?_ ?_
        · intro a ha
          have han : a ≠ n := fun e => hnpost (e ▸ ha)
          have ha0 : ¬ some h0 = some a := by
            simp only [Option.some.injEq]
            exact fun e => hdisj h0 (List.mem_cons_self _ _) (e ▸ ha)
          rw [moveValueToHead_Previous, hH0, if_neg ha0, if_neg han, hnNext, hnPrev]
        · intro a ha
          have han : a ≠ n := fun e => hnpost (e ▸ ha)
          have hap : ¬ some p = some a := by
            simp only [Option.some.injEq]
            exact fun e => hdisj p hp (e ▸ ha)
          rw [moveValueToHead_Next, if_neg han, hnPrev, if_neg hap]
          by_cases hla : lastOr post none = some a
          · rw [if_pos hla]
            exact Seg_last_Next post (some n) none a hSpost hla
          · rw [if_neg hla]

/-! ## The claims on `Lookup`, construction, `remove` and the list -/

/-- C11: `Lookup` is idempotent.  In every state and for every key, a second `Lookup(k)`
right after the first returns the same `(value, found)` pair and leaves the whole state
(heap, `Cache`, `Head`, `Tail`, `CurrentSize`) as the first call left it. -/
theorem Lookup_twice_same_result_and_state [Inhabited T] (c : LRUCache T) (k : String) :
    (Lookup (Lookup c k).2 k).1 = (Lookup c k).1 ∧
      (Lookup (Lookup c k).2 k).2 = (Lookup c k).2 := by
  cases hg : mapGet c.Cache k with
  | none =>
    have h1 : Lookup c k = ((default, false), c) := by
      unfold Lookup
      rw [hg]
    rw [h1]
    simp only []
    rw [h1]
    exact ⟨rfl, rfl⟩
  | some a =>
    by_cases hcond : c.LinkedList.Head ≠ some a ∧ c.CurrentSize > 1
    · have h1 : Lookup c k = ((((moveValueToHead c a).heap a).Data, true), moveValueToHead c a) := by
        unfold Lookup
        rw [hg]
        simp only []
        rw [if_pos hcond]
      have hg2 : mapGet (moveValueToHead c a).Cache k = some a := hg
      have hn : ¬ ((moveValueToHead c a).LinkedList.Head ≠ some a ∧
          (moveValueToHead c a).CurrentSize > 1) := by
        intro h
        exact h.1 rfl
      have h2 : Lookup (moveValueToHead c a) k =
          ((((moveValueToHead c a).heap a).Data, true), moveValueToHead c a) := by
        unfold Lookup
        rw [hg2]
        simp only []
        rw [if_neg hn]
      rw [h1]
      simp only []
      rw [h2]
      exact ⟨rfl, rfl⟩
    · have h1 : Lookup c k = (((c.heap a).Data, true), c) := by
        unfold Lookup
        rw [hg]
        simp only []
        rw [if_neg hcond]
      rw [h1]
      simp only []
      rw [h1]
      exact ⟨rfl, rfl⟩

/-- C12: at capacity 3, after `Add A`, `Add B`, `Add B`, `Add C`, `Lookup A` the cache is
full (`CurrentSize = Size = 3`) and `Tail` is nil; the next `Add("A", 0)` calls
`trimFromCurrentTail`, which dereferences the nil tail. -/
theorem Add_reaches_nil_tail :
    (run (NewLRUCache 3) nilTailCalls).map
        (fun c => (c.CurrentSize, c.Size, c.LinkedList.Tail)) = some (3, 3, none) ∧
      ((run (NewLRUCache 3) nilTailCalls).map
        (fun c => (trimFromCurrentTail c).isSome)) = some false ∧
      ((run (NewLRUCache 3) nilTailCalls).bind (fun c => Add c "A" 0)).isSome = false := by
  decide

/-- C13, the claim at `size = 0`: `NewLRUCache(0)` yields a cache instance, with `Size = 0`
and nothing in it, on which `Lookup` answers. -/
theorem NewLRUCache_zero_yields_instance :
    ∃ c : LRUCache Nat, NewLRUCache 0 = c ∧ c.Size = 0 ∧ c.CurrentSize = 0 ∧
      (Lookup c "A").1 = (0, false) :=
  ⟨NewLRUCache 0, rfl, rfl, rfl, rfl⟩

/-- C13 as amended: `NewLRUCache(size)` checks nothing.  For every `size`, positive or not,
it yields a cache with `Size = size`, `CurrentSize = 0`, an empty `Cache` and nil `Head`
and `Tail`. -/
theorem NewLRUCache_never_fails [Inhabited T] (size : Int) :
    (NewLRUCache size : LRUCache T).Size = size ∧
      (NewLRUCache size : LRUCache T).CurrentSize = 0 ∧
      (NewLRUCache size : LRUCache T).Cache = [] ∧
      (NewLRUCache size : LRUCache T).LinkedList.Head = none ∧
      (NewLRUCache size : LRUCache T).LinkedList.Tail = none :=
  ⟨rfl, rfl, rfl, rfl, rfl⟩

/-- C14, the claim at a present key: in the capacity-2 cache holding `A` and `B`,
after `remove("A")` the key `A` is still found by `Lookup`, `CurrentSize` is still 2 and
both nodes are still linked. -/
theorem remove_present_key_keeps_it :
    mapGet cacheAB.Cache "A" = some 0 ∧
      (Lookup (remove cacheAB "A") "A").1 = (1, true) ∧
      (remove cacheAB "A").CurrentSize = 2 ∧
      nodesFromHead (remove cacheAB "A") = some [1, 0] := by
  decide

/-- C14 as amended: `remove` is an empty stub.  For every state and every key, present or
absent, it leaves the state as it was, so a following `Lookup` answers as before. -/
theorem remove_changes_nothing [Inhabited T] (c : LRUCache T) (k : String) :
    remove c k = c ∧ Lookup (remove c k) k = Lookup c k :=
  ⟨rfl, rfl⟩

/-- C18: on the calls of `TestScenario3_EvictionWhenFull` at capacity 2 the list walked
from `Head` is `C -> B` (nodes 2 and 1), yet `Tail` is node 0, the evicted node of `A`:
it is not the last node of the walk and its key is not in `Cache`. -/
theorem Tail_is_stale_after_eviction :
    (run (NewLRUCache 2) scenario3).map (fun c => (order c, nodesFromHead c))
        = some (some [("C", 3), ("B", 2)], some [2, 1]) ∧
      (run (NewLRUCache 2) scenario3).map
        (fun c => (c.LinkedList.Head, c.LinkedList.Tail, (c.heap 0).CacheKey))
        = some (some 2, some 0, "A") ∧
      (run (NewLRUCache 2) scenario3).map (fun c => mapGet c.Cache "A") = some none := by
  decide

/-- C19: the capacity-2 cache holding `A` and `B` has the well-formed list `B -> A`
(nodes 1 and 0) with head 1.  `moveValueToHead` on node 1 changes it: node 1 gets
`Next = Previous =` itself and node 0 loses its `Previous`, so the walk from `Head` no
longer ends.  `Add("B", 3)` on a capacity-3 cache holding `A` and `B` does exactly this. -/
theorem moveValueToHead_on_Head_makes_cycle :
    (WellFormed cacheAB [1, 0] ∧ cacheAB.LinkedList.Head = some 1) ∧
      ((cacheAB.heap 1).Next = some 0 ∧ (cacheAB.heap 1).Previous = none ∧
        (cacheAB.heap 0).Previous = some 1) ∧
      (((moveValueToHead cacheAB 1).heap 1).Next = some 1 ∧
        ((moveValueToHead cacheAB 1).heap 1).Previous = some 1 ∧
        ((moveValueToHead cacheAB 1).heap 0).Previous = none) ∧
      nodesFromHead (moveValueToHead cacheAB 1) = none ∧
      (run (NewLRUCache 3) [Op.add "A" 1, Op.add "B" 2, Op.add "B" 3]).map
        (fun c => (nodesFromHead c, (c.heap 1).Next)) = some (none, some 1) := by
  decide

/-- C20: move-to-front on a well-formed list.  When the list of `c` is well formed with
node sequence `l` (so the walk from `Head` yields `l`) and `n` is a node of `l` other
than `Head`, the list after `moveValueToHead(n)` is well formed with node sequence `n`
followed by `l` without `n`, the walk from the new `Head` yields that sequence, and
`Tail` has become the former `Previous` of `n` if `n` was `Tail` and is unchanged
otherwise. -/
theorem moveValueToHead_moves_node_to_front (c : LRUCache T) (l : List Nat) (n : Nat)
    (hwf : WellFormed c l) (hn : n ∈ l) (hhead : c.LinkedList.Head ≠ some n) :
    walk c.heap l.length c.LinkedList.Head = some l ∧
      WellFormed (moveValueToHead c n) (n :: l.erase n) ∧
      walk (moveValueToHead c n).heap l.length (moveValueToHead c n).LinkedList.Head
        = some (n :: l.erase n) ∧
      (moveValueToHead c n).LinkedList.Tail
        = if c.LinkedList.Tail = some n then (c.heap n).Previous else c.LinkedList.Tail := by
  have hnew := moveValueToHead_WellFormed hwf hn hhead
  have hlen : (n :: l.erase n).length = l.length := by
    rw [List.length_cons, List.length_erase_of_mem hn]
    have : 0 < l.length := List.length_pos_of_mem hn
    omega
  refine ⟨WellFormed_walk hwf, hnew, ?_, ?_⟩
  · have := WellFormed_walk hnew
    rw [hlen] at this
    exact this
  · show (if (decide (some n = c.LinkedList.Tail)) = true then (c.heap n).Previous
        else c.LinkedList.Tail) = _
    by_cases ht : c.LinkedList.Tail = some n
    · rw [if_pos ht, if_pos (decide_eq_true ht.symm)]
    · rw [if_neg ht, if_neg]
      simpa [eq_comm] using ht

/-- C20 on the list of `TestScenario5_LookupMovesToHead`: the capacity-2 cache holding
`A` and `B` has the list `B -> A` (nodes 1 and 0); moving node 0, which is the tail and
not the head, gives `A -> B` with node 1 as the new tail. -/
theorem moveValueToHead_moves_node_to_front_witness :
    (WellFormed cacheAB [1, 0] ∧ 0 ∈ [1, 0] ∧ cacheAB.LinkedList.Head ≠ some 0) ∧
      (walk cacheAB.heap [1, 0].length cacheAB.LinkedList.Head = some [1, 0] ∧
        WellFormed (moveValueToHead cacheAB 0) (0 :: [1, 0].erase 0) ∧
        walk (moveValueToHead cacheAB 0).heap [1, 0].length
          (moveValueToHead cacheAB 0).LinkedList.Head = some (0 :: [1, 0].erase 0) ∧
        (moveValueToHead cacheAB 0).LinkedList.Tail
          = if cacheAB.LinkedList.Tail = some 0 then (cacheAB.heap 0).Previous
            else cacheAB.LinkedList.Tail) :=
  ⟨⟨by decide, by decide, by decide⟩,
    moveValueToHead_moves_node_to_front cacheAB [1, 0] 0 (by decide) (by decide) (by decide)⟩

end LRU

namespace TokenBucket

/-! ## Lemmas on the token bucket -/

theorem Allow_fst (l : RateLimiter) (e : ℚ) :
    (Allow l e).1 = decide (1 ≤ min (l.Tokens + e * l.RefillRate) l.Capacity) := by
  unfold Allow
  simp only [add_comm (e * l.RefillRate) l.Tokens]
  by_cases h : min (l.Tokens + e * l.RefillRate) l.Capacity < 1
  · rw [if_pos h]
    simp [not_le.mpr h]
  · rw [if_neg h]
    simp [not_lt.mp h]

theorem Allow_Tokens (l : RateLimiter) (e : ℚ) :
    (Allow l e).2.Tokens =
      if 1 ≤ min (l.Tokens + e * l.RefillRate) l.Capacity then
        min (l.Tokens + e * l.RefillRate) l.Capacity - 1
      else min (l.Tokens + e * l.RefillRate) l.Capacity := by
  unfold Allow
  simp only [add_comm (e * l.RefillRate) l.Tokens]
  by_cases h : min (l.Tokens + e * l.RefillRate) l.Capacity < 1
  · rw [if_pos h, if_neg (not_le.mpr h)]
  · rw [if_neg h, if_pos (not_lt.mp h)]

theorem Allow_Capacity (l : RateLimiter) (e : ℚ) : (Allow l e).2.Capacity = l.Capacity := by
  unfold Allow
  simp only []
  split <;> rfl

/-- With no time elapsing, `k` tokens below the capacity serve exactly `k` calls. -/
theorem allowSeq_replicate_zero (k : ℕ) :
    ∀ l : RateLimiter, l.Tokens = k → (k : ℚ) ≤ l.Capacity →
      (allowSeq l (List.replicate k 0)).1 = List.replicate k true ∧
      (allowSeq l (List.replicate k 0)).2.Tokens = 0 ∧
      (allowSeq l (List.replicate k 0)).2.Capacity = l.Capacity := by
  induction k with
  | zero =>
    intro l ht _
    simp [allowSeq, ht]
  | succ k ih =>
    intro l ht hc
    have hmin : min (l.Tokens + 0 * l.RefillRate) l.Capacity = (k : ℚ) + 1 := by
      rw [zero_mul, add_zero, ht]
      push_cast
      exact min_eq_left (by exact_mod_cast hc)
    have h1 : (1 : ℚ) ≤ (k : ℚ) + 1 := by
      have : (0 : ℚ) ≤ (k : ℚ) := Nat.cast_nonneg k
      linarith
    have hfst : (Allow l 0).1 = true := by
      rw [Allow_fst, hmin]
      exact decide_eq_true h1
    have htok : (Allow l 0).2.Tokens = (k : ℚ) := by
      rw [Allow_Tokens, hmin, if_pos h1]
      ring
    have hcap : (Allow l 0).2.Capacity = l.Capacity := Allow_Capacity l 0
    have hle : (k : ℚ) ≤ (Allow l 0).2.Capacity := by
      rw [hcap]
      have : ((k + 1 : ℕ) : ℚ) = (k : ℚ) + 1 := by push_cast; ring
      rw [this] at hc
      linarith
    obtain ⟨i1, i2, i3⟩ := ih (Allow l 0).2 htok hle
    simp only [List.replicate_succ, allowSeq]
    exact ⟨by rw [hfst, i1], i2, by rw [i3, hcap]⟩

/-! ## The claims on the token bucket -/

/-- C15: the token-bucket step on exact rationals with the elapsed time `e` as input.
With `t = min (Tokens + e * RefillRate) Capacity`, `Allow` returns `true` exactly when
`1 ≤ t` and then leaves `Tokens = t - 1`; otherwise it returns `false` and leaves
`Tokens = t`.  A fresh limiter (rate 10, burst 5) with `e = 0` allows and keeps 4 tokens;
after five immediate calls the bucket is empty, `e = 1/4` then yields `5/2` tokens, and
of the next three calls the first two succeed and the third does not. -/
theorem Allow_token_bucket_step :
    (∀ (l : RateLimiter) (e : ℚ),
      (Allow l e).1 = decide (1 ≤ min (l.Tokens + e * l.RefillRate) l.Capacity) ∧
      (Allow l e).2.Tokens =
        if 1 ≤ min (l.Tokens + e * l.RefillRate) l.Capacity then
          min (l.Tokens + e * l.RefillRate) l.Capacity - 1
        else min (l.Tokens + e * l.RefillRate) l.Capacity) ∧
    ((Allow (NewRateLimiter 10 5 0) 0).1 = true ∧
      (Allow (NewRateLimiter 10 5 0) 0).2.Tokens = 4) ∧
    ((allowSeq (NewRateLimiter 10 5 0) [0, 0, 0, 0, 0]).2.Tokens = 0 ∧
      min ((allowSeq (NewRateLimiter 10 5 0) [0, 0, 0, 0, 0]).2.Tokens + 1 / 4 * 10) 5 = 5 / 2 ∧
      (allowSeq (allowSeq (NewRateLimiter 10 5 0) [0, 0, 0, 0, 0]).2 [1 / 4, 0, 0]).1
        = [true, true, false]) := by
  refine ⟨fun l e => ⟨Allow_fst l e, Allow_Tokens l e⟩, ?_, ?_⟩
  · norm_num [Allow, NewRateLimiter]
  · norm_num [allowSeq, Allow, NewRateLimiter]

/-- C16: burst exhaustion.  On `NewRateLimiter(rate, n)` with no time elapsing between
calls, the first `n` calls of `Allow` all return `true`, `Tokens` is then 0, and the
next call returns `false`.  `NewRateLimiter(10, 5)` allows five immediate calls and blocks
the sixth. -/
theorem burst_then_blocked :
    (∀ (rate now : ℚ) (n : ℕ),
      (allowSeq (NewRateLimiter rate n now) (List.replicate n 0)).1 = List.replicate n true ∧
      (allowSeq (NewRateLimiter rate n now) (List.replicate n 0)).2.Tokens = 0 ∧
      (Allow (allowSeq (NewRateLimiter rate n now) (List.replicate n 0)).2 0).1 = false) ∧
    (allowSeq (NewRateLimiter 10 5 0) [0, 0, 0, 0, 0, 0]).1
      = [true, true, true, true, true, false] := by
  constructor
  · intro rate now n
    obtain ⟨h1, h2, h3⟩ :=
      allowSeq_replicate_zero n (NewRateLimiter rate n now) rfl (le_refl _)
    refine ⟨h1, h2, ?_⟩
    rw [Allow_fst, h2, h3]
    have hn : (0 : ℚ) ≤ (NewRateLimiter rate n now).Capacity := by
      show (0 : ℚ) ≤ (n : ℚ)
      exact Nat.cast_nonneg n
    have : min ((0 : ℚ) + 0 * (allowSeq (NewRateLimiter rate n now)
        (List.replicate n 0)).2.RefillRate) (NewRateLimiter rate n now).Capacity = 0 := by
      rw [zero_mul, add_zero]
      exact min_eq_left hn
    rw [this]
    simp
  · norm_num [allowSeq, Allow, NewRateLimiter]

/-- C17: the token cap.  Whatever the state, the refill rate and the elapsed time, after
`Allow` the token count is at most `Capacity`, which `Allow` does not change.
`NewRateLimiter(10, 5)` left idle for one second and then asked once keeps exactly 4
tokens. -/
theorem Allow_Tokens_le_Capacity :
    (∀ (l : RateLimiter) (e : ℚ),
      (Allow l e).2.Tokens ≤ l.Capacity ∧ (Allow l e).2.Capacity = l.Capacity) ∧
    ((Allow (NewRateLimiter 10 5 0) 1).1 = true ∧
      (Allow (NewRateLimiter 10 5 0) 1).2.Tokens = 4) := by
  constructor
  · intro l e
    refine ⟨?_, Allow_Capacity l e⟩
    rw [Allow_Tokens]
    have hm : min (l.Tokens + e * l.RefillRate) l.Capacity ≤ l.Capacity := min_le_right _ _
    split
    · linarith
    · exact hm
  · norm_num [Allow, NewRateLimiter]

end TokenBucket
